import Mathlib

/-!
Verification development for the equation-to-music engine.

The definitions below are a shallow embedding of the core of
`mods/engine.py` (the per-equation time-step loop, scale mapping,
velocity curves, update rules and limit resets), `mods/parser.py`
(`parse_expr` and its free-symbol check) and `mods/runner.py` (the
bounded-concurrency scheduler `_maybe_start_or_queue` / `_finish`).

Modelling conventions:
- Python floats are modelled as rationals (`ℚ`).
- Python `int()` truncation toward zero is `pyInt`; Python `round()`
  (banker's rounding, half to even) is `pyRound`; Python `//` and `%`
  (floor division / floor modulus) are `Int.fdiv` / `Int.fmod`.
- `sympy` expressions are modelled by a small arithmetic AST `Expr`;
  an evaluation that raises (unknown name, division by zero) is `none`.
- `np.tanh` is an external library call and is abstracted as a
  normalization parameter `nrm : ℚ → ℚ`.
- Python dicts keyed by variable names are association lists (`VarMap`)
  with `dict.get(k, 0.0)` / `dict[k] = v` semantics.
-/

attribute [local semireducible] Rat.add Rat.sub Rat.mul Rat.inv Rat.ofScientific

/-- The floor of a rational, written out so the kernel can evaluate it. -/
def ratFloor (q : ℚ) : ℤ := q.num.fdiv (q.den : ℤ)

/-- Python `int()` on a float: truncation toward zero. -/
def pyInt (q : ℚ) : ℤ := if q < 0 then -(ratFloor (-q)) else ratFloor q

/-- Python `round()` on a float: round half to even. -/
def pyRound (q : ℚ) : ℤ :=
  let f : ℤ := ratFloor q
  let r : ℚ := q - (f : ℚ)
  if r < 1/2 then f
  else if 1/2 < r then f + 1
  else if 2 ∣ f then f else f + 1

/-- A Python dict from variable names to floats. -/
def VarMap := List (String × ℚ)

instance : DecidableEq VarMap := by
  unfold VarMap; infer_instance

instance : Repr VarMap := by
  unfold VarMap; infer_instance

instance : Membership (String × ℚ) VarMap := by
  unfold VarMap; infer_instance

/-- `d.get(k, 0.0)` on a variable dict. -/
def lookupVar (m : VarMap) (k : String) : ℚ := ((m.lookup k).getD 0)

/-- `d[k] = v` on a variable dict: replace the binding if present, else append. -/
def setVar : VarMap → String → ℚ → VarMap
  | [], k, v => [(k, v)]
  | (k', v') :: rest, k, v =>
      if k' = k then (k, v) :: rest else (k', v') :: setVar rest k v

/-- Arithmetic expressions, modelling the sympy expressions the engine
builds with `sympify`/`lambdify` (`mods/parser.py`, `mods/engine.py`). -/
inductive Expr where
  | num (q : ℚ)
  | var (name : String)
  | add (a b : Expr)
  | sub (a b : Expr)
  | mul (a b : Expr)
  | div (a b : Expr)
deriving DecidableEq, Repr

/-- Evaluate an expression as the lambdified callable `f(x, y, z, t)` does:
an unknown name raises (`none`), as does division by zero. -/
def Expr.evalAt : Expr → ℚ → ℚ → ℚ → ℚ → Option ℚ
  | .num q, _, _, _, _ => some q
  | .var n, x, y, z, t =>
      if n = "x" then some x
      else if n = "y" then some y
      else if n = "z" then some z
      else if n = "t" then some t
      else none
  | .add a b, x, y, z, t => do pure ((← a.evalAt x y z t) + (← b.evalAt x y z t))
  | .sub a b, x, y, z, t => do pure ((← a.evalAt x y z t) - (← b.evalAt x y z t))
  | .mul a b, x, y, z, t => do pure ((← a.evalAt x y z t) * (← b.evalAt x y z t))
  | .div a b, x, y, z, t => do
      let bv ← b.evalAt x y z t
      if bv = 0 then none else pure ((← a.evalAt x y z t) / bv)

/-- The free symbols of an expression (`expr.free_symbols` in `parse_expr`). -/
def freeSymbols : Expr → List String
  | .num _ => []
  | .var n => [n]
  | .add a b => freeSymbols a ++ freeSymbols b
  | .sub a b => freeSymbols a ++ freeSymbols b
  | .mul a b => freeSymbols a ++ freeSymbols b
  | .div a b => freeSymbols a ++ freeSymbols b

/-- The set difference `free - {x, y, z}` computed by `parse_expr`
(`mods/parser.py` lines 29-32). -/
def offendingSyms (e : Expr) : List String :=
  ((freeSymbols e).filter (fun s => !(s == "x" || s == "y" || s == "z"))).dedup

/-- `parse_expr` (`mods/parser.py`): reject any expression whose free
symbols are not a subset of `{x, y, z}`, reporting the offending symbols;
otherwise return the compiled expression. -/
def parse_expr (e : Expr) : Except (List String) Expr :=
  if offendingSyms e = [] then .ok e else .error (offendingSyms e)

/-- The key normalization `name.lower().replace('-', '_')` of
`_get_scale_degrees`, written as one character map (lowercasing a dash
is the identity, and the replacement pattern is a single character). -/
def normKey (s : String) : String :=
  String.mk (s.data.map fun c => if c.toLower = '-' then '_' else c.toLower)

/-- The `scales` dict literal of `_get_scale_degrees`
(`mods/engine.py` lines 20-36), in its insertion order. -/
def scalesTable : List (String × List ℤ) :=
  [("major", [0, 2, 4, 5, 7, 9, 11]),
   ("minor", [0, 2, 3, 5, 7, 8, 10]),
   ("pentatonic", [0, 2, 4, 7, 9]),
   ("a_minor", [0, 2, 3, 5, 7, 8, 10]),
   ("b_minor", [0, 2, 3, 5, 7, 9, 11]),
   ("c_minor", [0, 2, 3, 5, 7, 8, 10]),
   ("c_major", [0, 2, 4, 5, 7, 9, 11]),
   ("d_minor", [0, 2, 3, 5, 7, 8, 10]),
   ("d_major", [0, 2, 4, 5, 7, 9, 11]),
   ("e_minor", [0, 2, 3, 5, 7, 8, 10]),
   ("e_major", [0, 2, 4, 5, 7, 9, 11]),
   ("f_minor", [0, 2, 3, 5, 7, 8, 10]),
   ("f_major", [0, 2, 4, 5, 7, 9, 11]),
   ("g_minor", [0, 2, 3, 5, 7, 8, 10]),
   ("g_major", [0, 2, 4, 5, 7, 9, 11])]

/-- `_get_scale_degrees` (`mods/engine.py` lines 18-38):
`scales.get(key, scales['minor'])` with fallback to the minor row. -/
def getScaleDegrees (name : String) : List ℤ :=
  let key := if name = "" then "" else normKey name
  (scalesTable.lookup key).getD [0, 2, 3, 5, 7, 8, 10]

/-- `_quantize_time` (`mods/engine.py` lines 41-46). -/
def quantize_time (t quant beat_seconds : ℚ) : ℚ :=
  if quant ≤ 0 then t
  else
    let grid := beat_seconds * quant
    (pyRound (t / grid) : ℚ) * grid

/-- `total_steps` (`mods/engine.py` lines 272-274): product of scale size
and octave range, falling back to the scale size when non-positive. -/
def totalSteps (degrees : List ℤ) (octaves : ℤ) : ℤ :=
  let ts := (degrees.length : ℤ) * octaves
  if ts ≤ 0 then (degrees.length : ℤ) else ts

/-- `deg_index` (`mods/engine.py` lines 275-276): truncate then clamp. -/
def degIndexOf (v_scaled : ℚ) (ts : ℤ) : ℤ :=
  max 0 (min (ts - 1) (pyInt (v_scaled * (ts : ℚ))))

/-- The unclamped pitch of scale-degree position `d`
(`mods/engine.py` lines 280-283, before the clamp on line 284). -/
def rawPitch (degrees : List ℤ) (base d : ℤ) : ℤ :=
  base + degrees.getD (Int.fmod d (degrees.length : ℤ)).toNat 0
       + 12 * Int.fdiv d (degrees.length : ℤ)

/-- The polyphony pitch stack (`mods/engine.py` lines 278-285). -/
def chosenPitches (degrees : List ℤ) (base deg_index poly : ℤ) : List ℤ :=
  (List.range poly.toNat).map fun p : ℕ =>
    max 0 (min 127 (rawPitch degrees base (deg_index + (p : ℤ))))

/-- The velocity curve (`mods/engine.py` lines 287-291): the quadratic
formula fires only on the exact string `"exp"`. -/
def velocityOf (curve : String) (v_scaled : ℚ) : ℤ :=
  if curve = "exp" then pyInt (max 1 (min 127 (1 + v_scaled ^ 2 * 126)))
  else pyInt (max 1 (min 127 (1 + v_scaled * 126)))

/-- A well-formed scale-degree table row: nonempty, strictly increasing,
semitone offsets within an octave. Every row of `_get_scale_degrees`
satisfies this. -/
def GoodScale (l : List ℤ) : Prop :=
  l ≠ [] ∧ l.Pairwise (· < ·) ∧ ∀ a ∈ l, 0 ≤ a ∧ a ≤ 11

instance (l : List ℤ) : Decidable (GoodScale l) := by
  unfold GoodScale; infer_instance

/-- One entry of an equation's `updates` list, as the compilation loop in
`mods/engine.py` lines 229-241 sees it: either the string has no `'='`,
or it splits into a stripped left-hand side and a right-hand side whose
`sympify` result is `none` when parsing raises. -/
inductive UpdStr where
  | noEq : UpdStr
  | eqn (left : String) (rhs : Option Expr)
deriving DecidableEq, Repr

/-- An `eval_rate` field (`mods/engine.py` lines 186-197): a string with a
`'/'` destructured into the two `float()` results (`none` when `float`
raises), or a plain value (`none` when `float` raises). -/
inductive RateStr where
  | frac (a b : Option ℚ)
  | plain (v : Option ℚ)
deriving DecidableEq, Repr

/-- `frac` from `eval_rate` (`mods/engine.py` lines 187-197): any failure,
including division by zero, falls back to `1/8`. -/
def parseRate : RateStr → ℚ
  | .frac (some a) (some b) => if b = 0 then 1/8 else a / b
  | .frac _ _ => 1/8
  | .plain (some v) => v
  | .plain none => 1/8

/-- A `rhythm_quant` field (`mods/engine.py` lines 209-217): a string with
a `'/'`, or a plain number. -/
inductive QuantRaw where
  | fracStr (a b : Option ℚ)
  | plainNum (v : ℚ)
deriving DecidableEq, Repr

/-- `rhythm_quant` parsing (`mods/engine.py` lines 209-217): a bad or
zero-division fraction string falls back to `1/16`. -/
def parseQuant : QuantRaw → ℚ
  | .fracStr (some a) (some b) => if b = 0 then 1/16 else a / b
  | .fracStr _ _ => 1/16
  | .plainNum v => v

/-- The `mapping` sub-dictionary of an equation. -/
structure MappingCfg where
  base_midi : ℤ
  scale : String
  octave_range : ℤ
  polyphony : ℤ
  rhythm_quant : QuantRaw
  velocity_curve : String
deriving DecidableEq, Repr

/-- One equation record of the configuration, with the active window
already resolved to a `(start_t, end_t)` pair of seconds. -/
structure Equation where
  name : String
  expr : Expr
  vars : VarMap
  updates : List UpdStr
  eval_rate : RateStr
  mapping : MappingCfg
  window : ℚ × ℚ
  limits : List (String × Option (ℚ × ℚ))
deriving DecidableEq, Repr

/-- A configuration: tempo plus the ordered equation list. -/
structure Config where
  tempo : ℚ
  equations : List Equation
deriving DecidableEq, Repr

/-- The update-rule compilation loop (`mods/engine.py` lines 229-241).
The `try` spans the whole loop, so a right-hand side that fails to parse
(`sympify` raising) aborts compilation: `none` here models the exception. -/
def prepareUpdatesGo : List UpdStr → Option (List (String × Expr))
  | [] => some []
  | .noEq :: rest => prepareUpdatesGo rest
  | .eqn l r :: rest =>
      if l = "x" ∨ l = "y" ∨ l = "z" then
        match r with
        | none => none
        | some e => (prepareUpdatesGo rest).map (fun fns => (l, e) :: fns)
      else prepareUpdatesGo rest

/-- `update_fns` after the compilation loop: the exception handler on
`mods/engine.py` lines 240-241 resets the whole list to `[]`. -/
def prepareUpdates (upds : List UpdStr) : List (String × Expr) :=
  (prepareUpdatesGo upds).getD []

/-- One iteration of the per-step update loop (`mods/engine.py` lines
306-311): evaluate the rule at the current variable dict and time, write
the target variable; on evaluation failure leave the dict untouched. -/
def applyOneUpdate (st : VarMap) (varname : String) (rhs : Expr) (t : ℚ) : VarMap :=
  match rhs.evalAt (lookupVar st "x") (lookupVar st "y") (lookupVar st "z") t with
  | some v => setVar st varname v
  | none => st

/-- The per-step update loop (`mods/engine.py` lines 304-311): rules run
sequentially in declaration order over the same mutable dict. -/
def applyUpdates (fns : List (String × Expr)) (st : VarMap) (t : ℚ) : VarMap :=
  fns.foldl (fun s p => applyOneUpdate s p.1 p.2 t) st

/-- The per-step limit loop (`mods/engine.py` lines 313-321): each entry
is `[threshold, reset_to]`; a malformed entry (`none`, modelling a raise
in `float(lim[0])` / `float(lim[1])`) is skipped on its own. -/
def applyLimits (limits : List (String × Option (ℚ × ℚ))) (st : VarMap) : VarMap :=
  limits.foldl
    (fun s p =>
      match p.2 with
      | some (threshold, reset_to) =>
          if threshold ≤ lookupVar s p.1 then setVar s p.1 reset_to else s
      | none => s)
    st

/-- The per-step expression evaluation with its fallback chain
(`mods/engine.py` lines 254-261): `fn(x, y, z)`, then `fn(t, t, t)`,
then `0.0`. -/
def evalStep (fn : Expr) (st : VarMap) (t : ℚ) : ℚ :=
  match fn.evalAt (lookupVar st "x") (lookupVar st "y") (lookupVar st "z") 0 with
  | some v => v
  | none =>
      match fn.evalAt t t t 0 with
      | some v => v
      | none => 0

/-- Everything the stepping loop of one equation needs, as computed by
`render_config` before the loop (`mods/engine.py` lines 149-250).
`nrm` abstracts the external `np.tanh` saturation call. -/
structure LoopCtx where
  fn : Expr
  update_fns : List (String × Expr)
  limits : List (String × Option (ℚ × ℚ))
  degrees : List ℤ
  base_midi : ℤ
  octaves : ℤ
  poly : ℤ
  vel_curve : String
  rhythm_quant : ℚ
  beat_seconds : ℚ
  dt : ℚ
  end_t : ℚ
  nrm : ℚ → ℚ

/-- A note event as appended to the instrument
(`mods/engine.py` lines 300-302). -/
structure Note where
  velocity : ℤ
  pitch : ℤ
  start : ℚ
  endT : ℚ
deriving DecidableEq, Repr

/-- The note-emitting part of one loop iteration
(`mods/engine.py` lines 253-302): evaluate, normalize, map to pitches and
velocity, quantize the interval and force it positive if collapsed, then
emit one note per polyphony voice. -/
def stepNotes (c : LoopCtx) (t : ℚ) (st : VarMap) : List Note :=
  let v := evalStep c.fn st t
  let v_scaled := (c.nrm v + 1) / 2
  let ts := totalSteps c.degrees c.octaves
  let deg_index := degIndexOf v_scaled ts
  let chosen := chosenPitches c.degrees c.base_midi deg_index c.poly
  let vel := velocityOf c.vel_curve v_scaled
  let start_q := quantize_time t c.rhythm_quant c.beat_seconds
  let end_q0 := quantize_time (min c.end_t (t + c.dt)) c.rhythm_quant c.beat_seconds
  let end_q := if end_q0 ≤ start_q then start_q + max (1/100) c.dt else end_q0
  chosen.map fun p => { velocity := vel, pitch := p, start := start_q, endT := end_q }

/-- The state feedback of one loop iteration: updates then limits
(`mods/engine.py` lines 304-321). -/
def stepState (c : LoopCtx) (t : ℚ) (st : VarMap) : VarMap :=
  applyLimits c.limits (applyUpdates c.update_fns st t)

/-- The `while t <= end_t + 1e-9` stepping loop
(`mods/engine.py` lines 253-323), fueled. -/
def runLoop (c : LoopCtx) : ℕ → ℚ → VarMap → List Note × VarMap
  | 0, _, st => ([], st)
  | fuel + 1, t, st =>
      if t ≤ c.end_t + 1/1000000000 then
        let notes := stepNotes c t st
        let r := runLoop c fuel (t + c.dt) (stepState c t st)
        (notes ++ r.1, r.2)
      else ([], st)

/-- `dt` with its positivity clamp (`mods/engine.py` lines 198-200). -/
def dtOf (beat_seconds : ℚ) (rate : RateStr) : ℚ :=
  let dt := beat_seconds * parseRate rate
  if dt ≤ 0 then beat_seconds * (1/8) else dt

/-- Assemble the loop context of one equation from the configuration
fields, as `render_config` does before its loop
(`mods/engine.py` lines 149-250). -/
def mkCtx (nrm : ℚ → ℚ) (tempo : ℚ) (e : Equation) : LoopCtx :=
  let beat_seconds := 60 / tempo
  { fn := e.expr
    update_fns := prepareUpdates e.updates
    limits := e.limits
    degrees := getScaleDegrees (if e.mapping.scale = "" then "a_minor" else e.mapping.scale)
    base_midi := e.mapping.base_midi
    octaves := e.mapping.octave_range
    poly := e.mapping.polyphony
    vel_curve := e.mapping.velocity_curve
    rhythm_quant := parseQuant e.mapping.rhythm_quant
    beat_seconds := beat_seconds
    dt := dtOf beat_seconds e.eval_rate
    end_t := e.window.2
    nrm := nrm }

/-- Simulate one equation (`mods/engine.py` lines 162-325): `parse_expr`
runs first and its free-symbol error propagates to the caller; otherwise
the loop runs on a fresh float-valued copy of the equation's `vars`. -/
def renderEquation (nrm : ℚ → ℚ) (tempo : ℚ) (fuel : ℕ) (e : Equation) :
    Except (List String) (List Note × VarMap) :=
  match parse_expr e.expr with
  | .error syms => .error syms
  | .ok fn => .ok (runLoop { mkCtx nrm tempo e with fn := fn } fuel e.window.1 e.vars)

/-- The equation loop of `render_config` (`mods/engine.py` lines 162-325):
equations are simulated in order; a `parse_expr` error aborts the run,
discarding nothing already simulated. The first component collects the
tracks of the equations whose stepping loop completed before the error. -/
def renderEqs (nrm : ℚ → ℚ) (tempo : ℚ) (fuel : ℕ) :
    List Equation → List (List Note) × Option (List String)
  | [] => ([], none)
  | e :: rest =>
      match renderEquation nrm tempo fuel e with
      | .error syms => ([], some syms)
      | .ok (notes, _) =>
          let r := renderEqs nrm tempo fuel rest
          (notes :: r.1, r.2)

/-- `render_config`, restricted to its simulation core: the produced
tracks, plus the free-symbol error if one aborted the run. -/
def render_config (nrm : ℚ → ℚ) (fuel : ℕ) (cfg : Config) :
    List (List Note) × Option (List String) :=
  renderEqs nrm cfg.tempo fuel cfg.equations

/-- The scheduler state of `mods/runner.py`: the module-level `_active`
and `_queue` lists, plus two observation logs (the order in which
equations were appended to the queue, and the order in which queued
equations were later admitted to the active set). The logs record
history only; the transition functions never read them. -/
structure SchedState where
  active : List ℕ
  queue : List ℕ
  queuedHist : List ℕ
  promotedHist : List ℕ
deriving DecidableEq, Repr

/-- The empty initial scheduler state (`_active = []`, `_queue = []`). -/
def schedInit : SchedState := { active := [], queue := [], queuedHist := [], promotedHist := [] }

/-- `_maybe_start_or_queue` (`mods/runner.py` lines 86-93), with the
start of the admitted equation (`_start_equation`'s `_active.append`)
taken as part of the same atomic step: below capacity 3 the equation
goes straight to the active set, otherwise to the tail of the queue. -/
def schedSubmit (s : SchedState) (eq : ℕ) : SchedState :=
  if s.active.length < 3 then
    { s with active := s.active ++ [eq] }
  else
    { s with queue := s.queue ++ [eq], queuedHist := s.queuedHist ++ [eq] }

/-- `_finish` (`mods/runner.py` lines 67-78) as one atomic step: remove
the equation from the active set (`list.remove`, a no-op when absent),
then, if the queue is non-empty and a slot is free, pop the queue's head
and start it. -/
def schedComplete (s : SchedState) (eq : ℕ) : SchedState :=
  let s1 : SchedState := { s with active := s.active.erase eq }
  match s1.queue with
  | [] => s1
  | next :: rest =>
      if s1.active.length < 3 then
        { s1 with
            active := s1.active ++ [next]
            queue := rest
            promotedHist := s1.promotedHist ++ [next] }
      else s1

/-- An observable scheduler operation. -/
inductive SchedEvent where
  | submit (eq : ℕ)
  | complete (eq : ℕ)
deriving DecidableEq, Repr

/-- Apply one scheduler event. -/
def schedStep (s : SchedState) : SchedEvent → SchedState
  | .submit eq => schedSubmit s eq
  | .complete eq => schedComplete s eq

/-- Run a sequence of scheduler events from the empty initial state:
the reachable states are exactly the values of `schedExec`. -/
def schedExec (evs : List SchedEvent) : SchedState :=
  evs.foldl schedStep schedInit

/-- A heap of variable dictionaries, for the aliasing-sensitive reading
of `render_config`: locations are indices, allocation appends. -/
abbrev Heap := List VarMap

/-- Read the dict at a location. -/
def heapRead (h : Heap) (loc : ℕ) : VarMap := h.getD loc []

/-- Overwrite the dict at a location. -/
def heapWrite (h : Heap) (loc : ℕ) (v : VarMap) : Heap := h.set loc v

/-- Allocate a fresh dict, returning the new heap and its location. -/
def heapAlloc (h : Heap) (v : VarMap) : Heap × ℕ := (h ++ [v], h.length)

/-- The stepping loop over the heap: each iteration reads the equation's
local variable dict, emits its notes, and writes the updated dict back
to the same location (`vars_local[...] = ...` mutates only `vars_local`,
`mods/engine.py` lines 253-323). -/
def runLoopH (c : LoopCtx) : ℕ → ℚ → ℕ → Heap → List Note × Heap
  | 0, _, _, h => ([], h)
  | fuel + 1, t, loc, h =>
      if t ≤ c.end_t + 1/1000000000 then
        let st := heapRead h loc
        let notes := stepNotes c t st
        let h1 := heapWrite h loc (stepState c t st)
        let r := runLoopH c fuel (t + c.dt) loc h1
        (notes ++ r.1, r.2)
      else ([], h)

/-- The equation loop of `render_config` over the heap: each equation's
`vars` dict lives at the caller-owned location paired with it; line 250
of `mods/engine.py` (`vars_local = {k: float(v) for k, v in vars_.items()}`)
is the allocation of a fresh copy, and the loop runs on that copy. A
`parse_expr` error aborts the run with the heap as it stands. -/
def renderEqsHeap (nrm : ℚ → ℚ) (tempo : ℚ) (fuel : ℕ) :
    List (Equation × ℕ) → Heap → Heap
  | [], h => h
  | (e, loc) :: rest, h =>
      match parse_expr e.expr with
      | .error _ => h
      | .ok fn =>
          let vars_local := heapRead h loc
          let a := heapAlloc h vars_local
          let r := runLoopH { mkCtx nrm tempo e with fn := fn } fuel e.window.1 a.2 a.1
          renderEqsHeap nrm tempo fuel rest r.2

/-- The code's own normalization fallback
(`mods/engine.py` line 268): clip to `[-1, 1]`. Used to instantiate the
abstract saturation function on concrete runs. -/
def nrmClip (v : ℚ) : ℚ := max (-1) (min 1 v)

/-- A default mapping used by the concrete runs below. -/
def mapDefault : MappingCfg :=
  { base_midi := 60
    scale := "a_minor"
    octave_range := 2
    polyphony := 1
    rhythm_quant := .fracStr (some 1) (some 16)
    velocity_curve := "linear" }

/-- A well-formed one-step equation: `expr = x`, window `[0, 0]`. -/
def eqGood : Equation :=
  { name := "eq1"
    expr := .var "x"
    vars := [("x", 0)]
    updates := []
    eval_rate := .frac (some 1) (some 8)
    mapping := mapDefault
    window := (0, 0)
    limits := [] }

/-- An equation whose expression uses the unsupported free symbol `w`. -/
def eqBadSym : Equation :=
  { eqGood with name := "eq2", expr := .var "w" }

/-- Update rule `x = x + 1`. -/
def updIncrX : UpdStr := .eqn "x" (some (.add (.var "x") (.num 1)))

/-- Update rule `y = x`. -/
def updCopyX : UpdStr := .eqn "y" (some (.var "x"))

/-- An update rule whose right-hand side fails to parse
(`sympify` raises). -/
def updBadParse : UpdStr := .eqn "y" none

/-- The `deg_index` computed by one loop iteration
(`mods/engine.py` lines 263-276): normalize, rescale, truncate, clamp. -/
def stepDegIndex (c : LoopCtx) (t : ℚ) (st : VarMap) : ℤ :=
  degIndexOf ((c.nrm (evalStep c.fn st t) + 1) / 2) (totalSteps c.degrees c.octaves)

/-- A two-voice equation at the top of the MIDI range: `expr = -5`
saturates at `v_scaled = 0`, `base_midi = 127` makes both voices clamp. -/
def eqTopRange : Equation :=
  { eqGood with
      name := "top"
      expr := .num (-5)
      mapping := { mapDefault with base_midi := 127, polyphony := 2 } }

/-- A three-voice equation in mid-range, where no pitch clamps. -/
def eqPoly3 : Equation :=
  { eqGood with
      name := "poly3"
      mapping := { mapDefault with polyphony := 3 } }

/-- An equation that increments `x` each step, used on the heap model. -/
def eqIncr : Equation :=
  { eqGood with name := "incr", updates := [updIncrX] }

deriving instance DecidableEq for Except

theorem ratFloor_eq (q : ℚ) : ratFloor q = ⌊q⌋ := by
  rw [Rat.floor_def, ratFloor, Int.fdiv_eq_ediv _ (by positivity)]

theorem pyInt_eq_floor (q : ℚ) (h : 0 ≤ q) : pyInt q = ⌊q⌋ := by
  unfold pyInt
  rw [if_neg (not_lt.mpr h), ratFloor_eq]

theorem lookupD_goodScale (l : List (String × List ℤ)) (d : List ℤ) (hd : GoodScale d)
    (hl : ∀ p ∈ l, GoodScale p.2) (k : String) :
    GoodScale ((l.lookup k).getD d) := by
  induction l with
  | nil => simpa [List.lookup] using hd
  | cons p rest ih =>
      obtain ⟨k', v⟩ := p
      rcases hb : (k == k') with _ | _
      · simpa [List.lookup, hb] using ih fun q hq => hl q (List.mem_cons_of_mem _ hq)
      · simpa [List.lookup, hb] using hl ⟨k', v⟩ (List.mem_cons_self _ _)

theorem getScaleDegrees_good (name : String) : GoodScale (getScaleDegrees name) := by
  unfold getScaleDegrees
  exact lookupD_goodScale _ _ (by decide) (by decide) _

theorem getScaleDegrees_length_pos (name : String) : 0 < (getScaleDegrees name).length :=
  List.length_pos.mpr (getScaleDegrees_good name).1

theorem totalSteps_pos (degrees : List ℤ) (octaves : ℤ) (h : 0 < degrees.length) :
    0 < totalSteps degrees octaves := by
  unfold totalSteps
  dsimp only
  split
  · exact_mod_cast h
  · omega

theorem totalSteps_of_nonpos (degrees : List ℤ) (octaves : ℤ)
    (h : (degrees.length : ℤ) * octaves ≤ 0) :
    totalSteps degrees octaves = (degrees.length : ℤ) := by
  unfold totalSteps
  simp [h]

/-- C4 counterexample: with `velocity_curve = 'exponential'` — the member
named by the spec's enumerated set — and `v_scaled = 1/2`, the engine
emits the linear velocity 64, not the exponential-formula value
(32 truncated, 33 rounded): the quadratic branch requires the exact
string `'exp'`. -/
theorem c4_velocity_counterexample :
    velocityOf "exponential" (1/2) = 64 ∧
    velocityOf "exp" (1/2) = 32 ∧
    velocityOf "exponential" (1/2) ≠ 32 ∧
    velocityOf "exponential" (1/2) ≠ 33 := by
  decide

/-- C4 (amended): for `v_scaled ∈ [0, 1]` the emitted velocity is the
truncated `clamp(1 + v_scaled²·126, 1, 127)` exactly when the mapping's
`velocity_curve` is the string `'exp'`; every other string — including
`'exponential'` and `'linear'` — yields the truncated
`clamp(1 + v_scaled·126, 1, 127)`; either way the velocity lies in
`[1, 127]`. -/
theorem c4_velocity_amended (curve : String) (v : ℚ) (h0 : 0 ≤ v) (h1 : v ≤ 1) :
    velocityOf "exp" v = ⌊1 + v ^ 2 * 126⌋ ∧
    (curve ≠ "exp" → velocityOf curve v = ⌊1 + v * 126⌋) ∧
    1 ≤ velocityOf curve v ∧ velocityOf curve v ≤ 127 := by
  have hsq0 : 0 ≤ v ^ 2 := sq_nonneg v
  have hsq1 : v ^ 2 ≤ 1 := by nlinarith
  have hA1 : (1 : ℚ) ≤ 1 + v ^ 2 * 126 := by nlinarith
  have hA2 : 1 + v ^ 2 * 126 ≤ 127 := by nlinarith
  have hB1 : (1 : ℚ) ≤ 1 + v * 126 := by nlinarith
  have hB2 : 1 + v * 126 ≤ 127 := by nlinarith
  have clampA : max 1 (min 127 (1 + v ^ 2 * 126)) = 1 + v ^ 2 * 126 := by
    rw [min_eq_right hA2, max_eq_right hA1]
  have clampB : max 1 (min 127 (1 + v * 126)) = 1 + v * 126 := by
    rw [min_eq_right hB2, max_eq_right hB1]
  have hexp : velocityOf "exp" v = ⌊1 + v ^ 2 * 126⌋ := by
    unfold velocityOf
    rw [if_pos rfl, clampA, pyInt_eq_floor _ (by linarith)]
  have bndA1 : 1 ≤ ⌊1 + v ^ 2 * 126⌋ := Int.le_floor.mpr (by exact_mod_cast hA1)
  have bndA2 : ⌊1 + v ^ 2 * 126⌋ ≤ 127 := by
    calc ⌊1 + v ^ 2 * 126⌋ ≤ ⌊(127 : ℚ)⌋ := Int.floor_le_floor hA2
    _ = 127 := by norm_num
  have bndB1 : 1 ≤ ⌊1 + v * 126⌋ := Int.le_floor.mpr (by exact_mod_cast hB1)
  have bndB2 : ⌊1 + v * 126⌋ ≤ 127 := by
    calc ⌊1 + v * 126⌋ ≤ ⌊(127 : ℚ)⌋ := Int.floor_le_floor hB2
    _ = 127 := by norm_num
  refine ⟨hexp, fun hc => ?_, ?_, ?_⟩
  · unfold velocityOf
    rw [if_neg hc, clampB, pyInt_eq_floor _ (by linarith)]
  · by_cases hc : curve = "exp"
    · rw [hc, hexp]; exact bndA1
    · unfold velocityOf
      rw [if_neg hc, clampB, pyInt_eq_floor _ (by linarith)]
      exact bndB1
  · by_cases hc : curve = "exp"
    · rw [hc, hexp]; exact bndA2
    · unfold velocityOf
      rw [if_neg hc, clampB, pyInt_eq_floor _ (by linarith)]
      exact bndB2

/-- C4 witness: the amended statement evaluated at `curve = 'linear'`,
`v_scaled = 1/2`. -/
theorem c4_velocity_witness :
    velocityOf "linear" (1/2) = 64 ∧ 1 ≤ velocityOf "linear" (1/2) ∧
    velocityOf "linear" (1/2) ≤ 127 :=
  ⟨by decide,
   (c4_velocity_amended "linear" (1/2) (by norm_num) (by norm_num)).2.2.1,
   (c4_velocity_amended "linear" (1/2) (by norm_num) (by norm_num)).2.2.2⟩

/-- C7: for any `v_scaled ∈ [0, 1]` and any mapping configuration, the
total step count is positive (falling back to the scale size when the
product with `octave_range` is non-positive), `deg_index` is the clamped
floor of `v_scaled × total_steps`, it lies in `[0, total_steps - 1]`, and
every emitted pitch lies in `[0, 127]`. -/
theorem c7_scale_mapper (v : ℚ) (name : String) (octaves base poly : ℤ)
    (h0 : 0 ≤ v) (h1 : v ≤ 1) :
    0 < totalSteps (getScaleDegrees name) octaves ∧
    (((getScaleDegrees name).length : ℤ) * octaves ≤ 0 →
      totalSteps (getScaleDegrees name) octaves = ((getScaleDegrees name).length : ℤ)) ∧
    degIndexOf v (totalSteps (getScaleDegrees name) octaves) =
      max 0 (min (totalSteps (getScaleDegrees name) octaves - 1)
        ⌊v * ((totalSteps (getScaleDegrees name) octaves : ℤ) : ℚ)⌋) ∧
    0 ≤ degIndexOf v (totalSteps (getScaleDegrees name) octaves) ∧
    degIndexOf v (totalSteps (getScaleDegrees name) octaves) ≤
      totalSteps (getScaleDegrees name) octaves - 1 ∧
    ∀ p ∈ chosenPitches (getScaleDegrees name) base
        (degIndexOf v (totalSteps (getScaleDegrees name) octaves)) poly,
      0 ≤ p ∧ p ≤ 127 := by
  have hpos : 0 < totalSteps (getScaleDegrees name) octaves :=
    totalSteps_pos _ _ (getScaleDegrees_length_pos name)
  have htsQ : (0 : ℚ) ≤ v * ((totalSteps (getScaleDegrees name) octaves : ℤ) : ℚ) :=
    mul_nonneg h0 (by exact_mod_cast hpos.le)
  refine ⟨hpos, totalSteps_of_nonpos _ _, ?_, le_max_left 0 _, ?_, ?_⟩
  · unfold degIndexOf
    rw [pyInt_eq_floor _ htsQ]
  · exact max_le (by omega) (min_le_left _ _)
  · intro p hp
    unfold chosenPitches at hp
    simp only [List.mem_map, List.mem_range] at hp
    obtain ⟨k, _, rfl⟩ := hp
    exact ⟨le_max_left 0 _, max_le (by norm_num) (min_le_left _ _)⟩

/-- C7 witness: the mapper at `v_scaled = 1/2`, scale `a_minor`, two
octaves, `base_midi = 60`, polyphony 3. -/
theorem c7_scale_mapper_witness :
    degIndexOf (1/2) (totalSteps (getScaleDegrees "a_minor") 2) = 7 ∧
    (0 ≤ degIndexOf (1/2) (totalSteps (getScaleDegrees "a_minor") 2) ∧
      degIndexOf (1/2) (totalSteps (getScaleDegrees "a_minor") 2) ≤
        totalSteps (getScaleDegrees "a_minor") 2 - 1) ∧
    ∀ p ∈ chosenPitches (getScaleDegrees "a_minor") 60
        (degIndexOf (1/2) (totalSteps (getScaleDegrees "a_minor") 2)) 3,
      0 ≤ p ∧ p ≤ 127 :=
  ⟨by decide,
   ⟨(c7_scale_mapper (1/2) "a_minor" 2 60 3 (by norm_num) (by norm_num)).2.2.2.1,
    (c7_scale_mapper (1/2) "a_minor" 2 60 3 (by norm_num) (by norm_num)).2.2.2.2.1⟩,
   (c7_scale_mapper (1/2) "a_minor" 2 60 3 (by norm_num) (by norm_num)).2.2.2.2.2⟩

theorem schedStep_active_le (s : SchedState) (ev : SchedEvent)
    (h : s.active.length ≤ 3) : (schedStep s ev).active.length ≤ 3 := by
  cases ev with
  | submit eq =>
      simp only [schedStep, schedSubmit]
      split
      · next hlt => simp only [List.length_append, List.length_singleton]; omega
      · simpa using h
  | complete eq =>
      have hle : (s.active.erase eq).length ≤ s.active.length :=
        (s.active.erase_sublist eq).length_le
      simp only [schedStep, schedComplete]
      split
      · simpa using hle.trans h
      · split
        · next hlt => simp only [List.length_append, List.length_singleton]; omega
        · simpa using hle.trans h

theorem schedExec_active_le_aux (evs : List SchedEvent) :
    ∀ s : SchedState, s.active.length ≤ 3 → (evs.foldl schedStep s).active.length ≤ 3 := by
  induction evs with
  | nil => intro s h; simpa using h
  | cons ev rest ih =>
      intro s h
      simpa [List.foldl_cons] using ih _ (schedStep_active_le s ev h)

/-- C5: from the empty initial state, with `submit` and `onComplete` as
atomic steps, every reachable scheduler state holds at most 3 equations
in the active set; moreover `submit` admits to the active set exactly
when its size is below 3, and otherwise appends to the tail of the
queue, leaving the active set unchanged. -/
theorem c5_scheduler_capacity (evs : List SchedEvent) (eq : ℕ) :
    (schedExec evs).active.length ≤ 3 ∧
    ((schedExec evs).active.length < 3 →
      (schedStep (schedExec evs) (.submit eq)).active = (schedExec evs).active ++ [eq] ∧
      (schedStep (schedExec evs) (.submit eq)).queue = (schedExec evs).queue) ∧
    (3 ≤ (schedExec evs).active.length →
      (schedStep (schedExec evs) (.submit eq)).active = (schedExec evs).active ∧
      (schedStep (schedExec evs) (.submit eq)).queue = (schedExec evs).queue ++ [eq]) := by
  refine ⟨schedExec_active_le_aux evs schedInit (by simp [schedInit]), fun hlt => ?_, fun hge => ?_⟩
  · simp [schedStep, schedSubmit, if_pos hlt]
  · simp [schedStep, schedSubmit, if_neg (not_lt.mpr hge)]

/-- C5 witness: submitting four equations to the empty scheduler leaves
at most 3 active, and the fourth submission goes to the queue's tail. -/
theorem c5_scheduler_capacity_witness :
    (schedExec [.submit 1, .submit 2, .submit 3, .submit 4]).active.length ≤ 3 ∧
    (schedStep (schedExec [.submit 1, .submit 2, .submit 3, .submit 4]) (.submit 5)).queue =
      (schedExec [.submit 1, .submit 2, .submit 3, .submit 4]).queue ++ [5] :=
  ⟨(c5_scheduler_capacity [.submit 1, .submit 2, .submit 3, .submit 4] 5).1,
   ((c5_scheduler_capacity [.submit 1, .submit 2, .submit 3, .submit 4] 5).2.2 (by decide)).2⟩

theorem schedStep_fifo (s : SchedState) (ev : SchedEvent)
    (h : s.queuedHist = s.promotedHist ++ s.queue) :
    (schedStep s ev).queuedHist =
      (schedStep s ev).promotedHist ++ (schedStep s ev).queue := by
  cases ev with
  | submit eq =>
      simp only [schedStep, schedSubmit]
      split
      · simpa using h
      · simpa [h] using (List.append_assoc _ _ _).symm
  | complete eq =>
      simp only [schedStep, schedComplete]
      split
      · next hq => simpa [hq] using h
      · next next rest hq =>
          split
          · simp only []
            rw [h, hq]
            simp
          · simpa [hq] using h

theorem schedExec_fifo_aux (evs : List SchedEvent) :
    ∀ s : SchedState, s.queuedHist = s.promotedHist ++ s.queue →
      (evs.foldl schedStep s).queuedHist =
        (evs.foldl schedStep s).promotedHist ++ (evs.foldl schedStep s).queue := by
  induction evs with
  | nil => intro s h; simpa using h
  | cons ev rest ih =>
      intro s h
      simpa [List.foldl_cons] using ih _ (schedStep_fifo s ev h)

/-- C6: queue promotion is strictly FIFO. In every reachable state the
queue-arrival log equals the promotion log followed by the current queue
(so queued equations are admitted in exactly arrival order), and a
completion that admits from a non-empty queue admits precisely the
queue's head, removing it and appending it to the active set. -/
theorem c6_fifo_promotion (evs : List SchedEvent) (eq hd : ℕ) (rest : List ℕ) :
    (schedExec evs).queuedHist =
      (schedExec evs).promotedHist ++ (schedExec evs).queue ∧
    ((schedExec evs).queue = hd :: rest →
      (((schedExec evs).active.erase eq).length < 3 →
        (schedStep (schedExec evs) (.complete eq)).active =
          (schedExec evs).active.erase eq ++ [hd] ∧
        (schedStep (schedExec evs) (.complete eq)).queue = rest ∧
        (schedStep (schedExec evs) (.complete eq)).promotedHist =
          (schedExec evs).promotedHist ++ [hd]) ∧
      (3 ≤ ((schedExec evs).active.erase eq).length →
        (schedStep (schedExec evs) (.complete eq)).active = (schedExec evs).active.erase eq ∧
        (schedStep (schedExec evs) (.complete eq)).queue = hd :: rest ∧
        (schedStep (schedExec evs) (.complete eq)).promotedHist =
          (schedExec evs).promotedHist)) := by
  refine ⟨schedExec_fifo_aux evs schedInit (by simp [schedInit]), fun hq => ⟨fun hlt => ?_, fun hge => ?_⟩⟩
  · simp [schedStep, schedComplete, hq, if_pos hlt]
  · simp [schedStep, schedComplete, hq, if_neg (not_lt.mpr hge)]

/-- C6 witness: with equations 1-5 submitted (4 and 5 queued) and
equation 1 completing, the promoted equation is 4, the queue head. -/
theorem c6_fifo_promotion_witness :
    (schedExec [.submit 1, .submit 2, .submit 3, .submit 4, .submit 5]).queuedHist =
      (schedExec [.submit 1, .submit 2, .submit 3, .submit 4, .submit 5]).promotedHist ++
        (schedExec [.submit 1, .submit 2, .submit 3, .submit 4, .submit 5]).queue ∧
    (schedStep (schedExec [.submit 1, .submit 2, .submit 3, .submit 4, .submit 5])
        (.complete 1)).promotedHist =
      (schedExec [.submit 1, .submit 2, .submit 3, .submit 4, .submit 5]).promotedHist ++ [4] :=
  ⟨(c6_fifo_promotion [.submit 1, .submit 2, .submit 3, .submit 4, .submit 5] 1 4 [5]).1,
   (((c6_fifo_promotion [.submit 1, .submit 2, .submit 3, .submit 4, .submit 5] 1 4 [5]).2
      (by decide)).1 (by decide)).2.2⟩

theorem prepareUpdatesGo_noEq (pre post : List UpdStr) :
    prepareUpdatesGo (pre ++ UpdStr.noEq :: post) = prepareUpdatesGo (pre ++ post) := by
  induction pre with
  | nil => simp [prepareUpdatesGo]
  | cons u rest ih =>
      cases u with
      | noEq => simpa [prepareUpdatesGo] using ih
      | eqn l r =>
          simp only [List.cons_append, prepareUpdatesGo, List.append_eq]
          split
          · cases r with
            | none => rfl
            | some e => rw [ih]
          · exact ih

theorem prepareUpdatesGo_badLhs (pre post : List UpdStr) (l : String) (r : Option Expr)
    (hl : ¬(l = "x" ∨ l = "y" ∨ l = "z")) :
    prepareUpdatesGo (pre ++ UpdStr.eqn l r :: post) = prepareUpdatesGo (pre ++ post) := by
  induction pre with
  | nil => simp [prepareUpdatesGo, hl]
  | cons u rest ih =>
      cases u with
      | noEq => simpa [prepareUpdatesGo] using ih
      | eqn l' r' =>
          simp only [List.cons_append, prepareUpdatesGo, List.append_eq]
          split
          · cases r' with
            | none => rfl
            | some e => rw [ih]
          · exact ih

theorem prepareUpdatesGo_parseFail (upds : List UpdStr) (l : String)
    (hmem : UpdStr.eqn l none ∈ upds) (hl : l = "x" ∨ l = "y" ∨ l = "z") :
    prepareUpdatesGo upds = none := by
  induction upds with
  | nil => cases hmem
  | cons u rest ih =>
      rcases List.mem_cons.mp hmem with heq | hmem'
      · rw [← heq]
        simp [prepareUpdatesGo, hl]
      · cases u with
        | noEq => simpa [prepareUpdatesGo] using ih hmem'
        | eqn l' r' =>
            simp only [prepareUpdatesGo]
            split
            · cases r' with
              | none => rfl
              | some e => rw [ih hmem']; rfl
            · exact ih hmem'

theorem applyUpdates_append (fns1 fns2 : List (String × Expr)) (st : VarMap) (t : ℚ) :
    applyUpdates (fns1 ++ fns2) st t = applyUpdates fns2 (applyUpdates fns1 st t) t := by
  unfold applyUpdates
  exact List.foldl_append _ _ _ _

theorem applyUpdates_cons (nm : String) (ex : Expr) (fns : List (String × Expr))
    (st : VarMap) (t : ℚ) :
    applyUpdates ((nm, ex) :: fns) st t = applyUpdates fns (applyOneUpdate st nm ex t) t := rfl

theorem applyLimits_skip (lims1 lims2 : List (String × Option (ℚ × ℚ))) (v : String)
    (st : VarMap) :
    applyLimits (lims1 ++ (v, none) :: lims2) st = applyLimits (lims1 ++ lims2) st := by
  unfold applyLimits
  rw [List.foldl_append, List.foldl_append]
  rfl

/-- C1 counterexample: the well-formed rule `x = x + 1` is dropped
together with the rule whose right-hand side fails to parse — the
compiled update list is empty and `x` is left unchanged, although the
same rule alone would be applied. -/
theorem c1_counterexample :
    prepareUpdates [updIncrX, updBadParse] = [] ∧
    applyUpdates (prepareUpdates [updIncrX, updBadParse]) [("x", 0)] 0 = [("x", 0)] ∧
    applyUpdates (prepareUpdates [updIncrX]) [("x", 0)] 0 = [("x", 1)] := by
  decide

/-- C1 (amended): a rule without `'='` or with a left-hand side outside
`{x, y, z}` is skipped individually, other rules unaffected; a compiled
rule that fails to evaluate at a step is skipped at that step, the other
rules still applied; a malformed limit entry is skipped without
disabling other limits; but a rule whose right-hand side fails to parse
discards the equation's whole update list, well-formed rules included. -/
theorem c1_update_failure_amended (pre post upds : List UpdStr) (l : String) (r : Option Expr)
    (fns1 fns2 : List (String × Expr)) (nm : String) (ex : Expr) (st : VarMap) (t : ℚ)
    (lims1 lims2 : List (String × Option (ℚ × ℚ))) (v : String) :
    prepareUpdates (pre ++ UpdStr.noEq :: post) = prepareUpdates (pre ++ post) ∧
    (l ∉ (["x", "y", "z"] : List String) →
      prepareUpdates (pre ++ UpdStr.eqn l r :: post) = prepareUpdates (pre ++ post)) ∧
    (UpdStr.eqn l none ∈ upds → l ∈ (["x", "y", "z"] : List String) →
      prepareUpdates upds = []) ∧
    (ex.evalAt (lookupVar (applyUpdates fns1 st t) "x") (lookupVar (applyUpdates fns1 st t) "y")
        (lookupVar (applyUpdates fns1 st t) "z") t = none →
      applyUpdates (fns1 ++ (nm, ex) :: fns2) st t = applyUpdates (fns1 ++ fns2) st t) ∧
    applyLimits (lims1 ++ (v, none) :: lims2) st = applyLimits (lims1 ++ lims2) st := by
  refine ⟨?_, fun hl => ?_, fun hmem hl => ?_, fun hev => ?_, applyLimits_skip lims1 lims2 v st⟩
  · unfold prepareUpdates
    rw [prepareUpdatesGo_noEq]
  · unfold prepareUpdates
    rw [prepareUpdatesGo_badLhs pre post l r (by simpa using hl)]
  · unfold prepareUpdates
    rw [prepareUpdatesGo_parseFail upds l hmem (by simpa using hl)]
    rfl
  · have hskip : applyOneUpdate (applyUpdates fns1 st t) nm ex t = applyUpdates fns1 st t := by
      unfold applyOneUpdate
      rw [hev]
    rw [applyUpdates_append, applyUpdates_cons, hskip, ← applyUpdates_append]

/-- C1 witness: the amended statement at concrete rule lists — a missing
`'='`, an unknown left-hand side, a parse failure, an evaluation failure
and a malformed limit, each at a concrete state. -/
theorem c1_update_failure_witness :
    prepareUpdates [UpdStr.noEq, updIncrX] = prepareUpdates [updIncrX] ∧
    prepareUpdates [UpdStr.eqn "w" (some (.num 1)), updIncrX] = prepareUpdates [updIncrX] ∧
    prepareUpdates [updIncrX, updBadParse] = [] ∧
    applyUpdates [("y", Expr.var "q"), ("x", Expr.add (.var "x") (.num 1))] [("x", 0)] 0 =
      applyUpdates [("x", Expr.add (.var "x") (.num 1))] [("x", 0)] 0 ∧
    applyLimits [("x", none), ("y", some (10, 0))] [("y", 10)] =
      applyLimits [("y", some (10, 0))] [("y", 10)] :=
  ⟨(c1_update_failure_amended [] [updIncrX] [] "w" none [] [] "" (.num 0) [] 0 [] [] "").1,
   (c1_update_failure_amended [] [updIncrX] [] "w" (some (.num 1)) [] [] "" (.num 0) [] 0 [] []
      "").2.1 (by decide),
   (c1_update_failure_amended [] [] [updIncrX, updBadParse] "y" none [] [] "" (.num 0) [] 0 [] []
      "").2.2.1 (by decide) (by decide),
   (c1_update_failure_amended [] [] [] "y" none []
      [("x", Expr.add (.var "x") (.num 1))] "y" (.var "q") [("x", 0)] 0 [] [] "").2.2.2.1
      (by decide),
   (c1_update_failure_amended [] [] [] "y" none [] [] "" (.num 0) [("y", 10)] 0 []
      [("y", some (10, 0))] "x").2.2.2.2⟩

/-- C2 counterexample: with updates `['x = x + 1', 'y = x']` from
`x = y = 0`, after one step `y` holds 1 — the value `x` took earlier in
the same step — not the pre-update value 0 the claim asserts. -/
theorem c2_counterexample :
    lookupVar (applyUpdates (prepareUpdates [updIncrX, updCopyX]) [("x", 0), ("y", 0)] 0) "y"
      = 1 ∧
    lookupVar (applyUpdates (prepareUpdates [updIncrX, updCopyX]) [("x", 0), ("y", 0)] 0) "y"
      ≠ 0 := by
  decide

/-- C2 (amended): update rules are applied sequentially in declaration
order, but each rule reads the current variable state, including writes
made by earlier rules of the same step; with updates
`['x = x + 1', 'y = x']`, `y` receives `x0 + 1`, the already-updated
value of `x`. -/
theorem c2_sequential_current_state (fns1 fns2 : List (String × Expr)) (nm : String) (ex : Expr)
    (st : VarMap) (t x0 y0 : ℚ) :
    applyUpdates (fns1 ++ (nm, ex) :: fns2) st t =
      applyUpdates fns2 (applyOneUpdate (applyUpdates fns1 st t) nm ex t) t ∧
    lookupVar (applyUpdates (prepareUpdates [updIncrX, updCopyX]) [("x", x0), ("y", y0)] t) "x"
      = x0 + 1 ∧
    lookupVar (applyUpdates (prepareUpdates [updIncrX, updCopyX]) [("x", x0), ("y", y0)] t) "y"
      = x0 + 1 := by
  refine ⟨?_, rfl, rfl⟩
  rw [applyUpdates_append, applyUpdates_cons]

theorem stepNotes_endgt (c : LoopCtx) (t : ℚ) (st : VarMap) :
    ∀ n ∈ stepNotes c t st, n.start < n.endT := by
  intro n hn
  simp only [stepNotes, List.mem_map] at hn
  obtain ⟨p, hp, rfl⟩ := hn
  dsimp only
  split
  · have h100 : (0 : ℚ) < max (1/100) c.dt :=
      lt_of_lt_of_le (by norm_num) (le_max_left _ _)
    linarith
  · next hgt => exact lt_of_not_le hgt

theorem runLoop_endgt (c : LoopCtx) (fuel : ℕ) :
    ∀ (t : ℚ) (st : VarMap), ∀ n ∈ (runLoop c fuel t st).1, n.start < n.endT := by
  induction fuel with
  | zero =>
      intro t st n hn
      simp [runLoop] at hn
  | succ k ih =>
      intro t st n hn
      rw [runLoop] at hn
      split at hn
      · rcases List.mem_append.mp hn with h | h
        · exact stepNotes_endgt c t st n h
        · exact ih _ _ n h
      · simp at hn

/-- C8: every note produced by the stepping loop has `end > start` — the
collapsed-interval repair forces `end_q = start_q + max(0.01, dt)` — and
with a positive tempo the step `dt` is strictly positive, a non-positive
parsed eval rate being clamped to `beat_seconds × 0.125`. -/
theorem c8_positive_duration (nrm : ℚ → ℚ) (tempo : ℚ) (fuel : ℕ) (e : Equation)
    (notes : List Note) (stf : VarMap) (ht : 0 < tempo)
    (hr : renderEquation nrm tempo fuel e = .ok (notes, stf)) :
    (∀ n ∈ notes, n.start < n.endT) ∧ 0 < dtOf (60 / tempo) e.eval_rate := by
  constructor
  · intro n hn
    unfold renderEquation at hr
    cases hp : parse_expr e.expr with
    | error s =>
        rw [hp] at hr
        cases hr
    | ok fn =>
        rw [hp] at hr
        simp only [Except.ok.injEq] at hr
        have hnotes : notes = (runLoop { mkCtx nrm tempo e with fn := fn } fuel
            e.window.1 e.vars).1 := by
          rw [hr]
        rw [hnotes] at hn
        exact runLoop_endgt _ fuel _ _ n hn
  · have hbeat : 0 < 60 / tempo := by positivity
    unfold dtOf
    dsimp only
    split
    · positivity
    · next hnot => exact lt_of_not_le hnot

/-- C8 witness: a one-step render of `expr = x` at tempo 120 produces the
note `[0, 1/16)` with positive duration, and `dt = 1/16 > 0`. -/
theorem c8_positive_duration_witness :
    ({ velocity := 64, pitch := 72, start := 0, endT := 1/16 } : Note).start <
      ({ velocity := 64, pitch := 72, start := 0, endT := 1/16 } : Note).endT ∧
    0 < dtOf (60 / 120) (RateStr.frac (some 1) (some 8)) :=
  ⟨(c8_positive_duration nrmClip 120 4 eqGood
      [{ velocity := 64, pitch := 72, start := 0, endT := 1/16 }] [("x", 0)]
      (by norm_num) (by decide)).1 _ (by decide),
   (c8_positive_duration nrmClip 120 4 eqGood
      [{ velocity := 64, pitch := 72, start := 0, endT := 1/16 }] [("x", 0)]
      (by norm_num) (by decide)).2⟩

/-- C3 counterexample: a configuration whose second equation uses the
unsupported symbol `w`. The error surfaces to the caller and names `w`,
but the first equation's stepping loop has already run: its track (one
note) was simulated before the error was raised, contradicting the claim
that no stepping loop of any equation executes before the error. -/
theorem c3_counterexample :
    (render_config nrmClip 4 ⟨120, [eqGood, eqBadSym]⟩).2 = some ["w"] ∧
    (render_config nrmClip 4 ⟨120, [eqGood, eqBadSym]⟩).1 =
      [[{ velocity := 64, pitch := 72, start := 0, endT := 1/16 }]] := by
  decide

/-- C3 (amended): a free symbol outside `{x, y, z}` makes `parse_expr`
fail before the offending equation's own stepping loop, the error names
the offending symbols and aborts the render — but the equations before
it in the configuration are fully simulated first (one completed track
per preceding equation). -/
theorem c3_parse_error_amended (nrm : ℚ → ℚ) (tempo : ℚ) (fuel : ℕ) (pre : List Equation)
    (e : Equation) (post : List Equation)
    (hpre : ∀ eq ∈ pre, offendingSyms eq.expr = [])
    (he : offendingSyms e.expr ≠ []) :
    (renderEqs nrm tempo fuel (pre ++ e :: post)).2 = some (offendingSyms e.expr) ∧
    (renderEqs nrm tempo fuel (pre ++ e :: post)).1.length = pre.length := by
  induction pre with
  | nil =>
      have herr : parse_expr e.expr = .error (offendingSyms e.expr) := by
        unfold parse_expr
        rw [if_neg he]
      have hre : renderEquation nrm tempo fuel e = .error (offendingSyms e.expr) := by
        unfold renderEquation
        rw [herr]
      simp [renderEqs, hre]
  | cons e0 rest ih =>
      have h0 : offendingSyms e0.expr = [] := hpre e0 (List.mem_cons_self _ _)
      have hok : parse_expr e0.expr = .ok e0.expr := by
        unfold parse_expr
        rw [if_pos h0]
      have hre : renderEquation nrm tempo fuel e0 = .ok (runLoop
          { mkCtx nrm tempo e0 with fn := e0.expr } fuel e0.window.1 e0.vars) := by
        unfold renderEquation
        rw [hok]
      have ihh := ih fun q hq => hpre q (List.mem_cons_of_mem _ hq)
      constructor
      · simpa [renderEqs, hre] using ihh.1
      · simpa [renderEqs, hre] using ihh.2

/-- C3 witness: the amended statement on the two-equation configuration
of the counterexample. -/
theorem c3_parse_error_witness :
    (renderEqs nrmClip 120 4 ([eqGood] ++ eqBadSym :: [])).2 =
      some (offendingSyms eqBadSym.expr) ∧
    (renderEqs nrmClip 120 4 ([eqGood] ++ eqBadSym :: [])).1.length = 1 :=
  ⟨(c3_parse_error_amended nrmClip 120 4 [eqGood] eqBadSym [] (by decide) (by decide)).1,
   (c3_parse_error_amended nrmClip 120 4 [eqGood] eqBadSym [] (by decide) (by decide)).2⟩

theorem fmod_nonneg' (d L : ℤ) (hL : 0 < L) : 0 ≤ Int.fmod d L := by
  rw [Int.fmod_eq_emod _ hL.le]
  exact Int.emod_nonneg d hL.ne'

theorem fmod_lt (d L : ℤ) (hL : 0 < L) : Int.fmod d L < L := by
  rw [Int.fmod_eq_emod _ hL.le]
  exact Int.emod_lt_of_pos d hL

theorem fmodfdiv_succ (d L : ℤ) (hd : 0 ≤ d) (hL : 0 < L) :
    (Int.fmod (d + 1) L = Int.fmod d L + 1 ∧ Int.fdiv (d + 1) L = Int.fdiv d L ∧
      Int.fmod d L + 1 < L) ∨
    (Int.fmod d L = L - 1 ∧ Int.fmod (d + 1) L = 0 ∧
      Int.fdiv (d + 1) L = Int.fdiv d L + 1) := by
  simp only [Int.fmod_eq_emod _ hL.le, Int.fdiv_eq_ediv _ hL.le]
  have h0 : d % L + L * (d / L) = d := Int.emod_add_ediv d L
  have hr0 : 0 ≤ d % L := Int.emod_nonneg d hL.ne'
  have hr1 : d % L < L := Int.emod_lt_of_pos d hL
  by_cases hc : d % L + 1 < L
  · left
    have hform : d + 1 = (d % L + 1) + L * (d / L) := by linarith
    refine ⟨?_, ?_, hc⟩
    · rw [hform, Int.add_mul_emod_self_left, Int.emod_eq_of_lt (by linarith) hc]
    · rw [hform, Int.add_mul_ediv_left _ _ hL.ne',
        Int.ediv_eq_zero_of_lt (by linarith) hc, zero_add]
  · have hEq : d % L = L - 1 := by linarith
    right
    have hexpand : L * (d / L + 1) = L * (d / L) + L := by ring
    have hform : d + 1 = L * (d / L + 1) := by linarith
    refine ⟨hEq, ?_, ?_⟩
    · rw [hform, Int.mul_emod_right]
    · rw [hform, Int.mul_ediv_cancel_left _ hL.ne']

theorem rawPitch_lt_succ (degrees : List ℤ) (base d : ℤ) (hg : GoodScale degrees)
    (hd : 0 ≤ d) : rawPitch degrees base d < rawPitch degrees base (d + 1) := by
  obtain ⟨hne, hpair, hbnd⟩ := hg
  have hLnat : 0 < degrees.length := List.length_pos.mpr hne
  have hL : 0 < (degrees.length : ℤ) := by exact_mod_cast hLnat
  have hr0 : 0 ≤ Int.fmod d (degrees.length : ℤ) := fmod_nonneg' d _ hL
  have hr1 : Int.fmod d (degrees.length : ℤ) < (degrees.length : ℤ) := fmod_lt d _ hL
  rcases fmodfdiv_succ d (degrees.length : ℤ) hd hL with ⟨h1, h2, h3⟩ | ⟨h1, h2, h3⟩
  · unfold rawPitch
    rw [h1, h2]
    have hia : (Int.fmod d (degrees.length : ℤ)).toNat < degrees.length := by omega
    have hib : (Int.fmod d (degrees.length : ℤ) + 1).toNat < degrees.length := by omega
    rw [List.getD_eq_getElem _ _ hia, List.getD_eq_getElem _ _ hib]
    have hlt := List.pairwise_iff_get.mp hpair
      ⟨(Int.fmod d (degrees.length : ℤ)).toNat, hia⟩
      ⟨(Int.fmod d (degrees.length : ℤ) + 1).toNat, hib⟩ (by simp; omega)
    simp only [List.get_eq_getElem] at hlt
    omega
  · unfold rawPitch
    rw [h1, h2, h3]
    have hia : ((degrees.length : ℤ) - 1).toNat < degrees.length := by omega
    have hib : (0 : ℤ).toNat < degrees.length := by omega
    rw [List.getD_eq_getElem _ _ hia, List.getD_eq_getElem _ _ hib]
    have hmema := hbnd _ (List.getElem_mem hia)
    have hmemb := hbnd _ (List.getElem_mem hib)
    omega

theorem rawPitch_lt_add (degrees : List ℤ) (base : ℤ) (hg : GoodScale degrees) :
    ∀ (k : ℕ) (d : ℤ), 0 ≤ d →
      rawPitch degrees base d < rawPitch degrees base (d + 1 + (k : ℤ)) := by
  intro k
  induction k with
  | zero =>
      intro d hd
      simpa using rawPitch_lt_succ degrees base d hg hd
  | succ m ih =>
      intro d hd
      have step := rawPitch_lt_succ degrees base (d + 1 + (m : ℤ)) hg (by omega)
      have := ih d hd
      have harith : d + 1 + (m : ℤ) + 1 = d + 1 + ((m : ℕ) + 1 : ℕ) := by push_cast; ring
      rw [harith] at step
      omega

theorem rawPitch_lt_of_lt (degrees : List ℤ) (base : ℤ) (hg : GoodScale degrees)
    (d d' : ℤ) (hd : 0 ≤ d) (hlt : d < d') :
    rawPitch degrees base d < rawPitch degrees base d' := by
  obtain ⟨k, rfl⟩ : ∃ k : ℕ, d' = d + 1 + (k : ℤ) := ⟨(d' - d - 1).toNat, by omega⟩
  exact rawPitch_lt_add degrees base hg k d hd

theorem chosenPitches_sorted (degrees : List ℤ) (base deg poly : ℤ) (hg : GoodScale degrees)
    (hdeg : 0 ≤ deg) :
    List.Pairwise (· ≤ ·) (chosenPitches degrees base deg poly) := by
  unfold chosenPitches
  have hp : List.Pairwise
      (fun a b : ℕ => max 0 (min 127 (rawPitch degrees base (deg + (a : ℤ)))) ≤
        max 0 (min 127 (rawPitch degrees base (deg + (b : ℤ)))))
      (List.range poly.toNat) := by
    refine (List.pairwise_lt_range poly.toNat).imp_of_mem fun {a b} _ _ hab => ?_
    have : rawPitch degrees base (deg + (a : ℤ)) < rawPitch degrees base (deg + (b : ℤ)) :=
      rawPitch_lt_of_lt degrees base hg _ _ (by omega) (by omega)
    omega
  exact List.pairwise_map.mpr hp

theorem chosenPitches_distinct (degrees : List ℤ) (base deg poly : ℤ) (hg : GoodScale degrees)
    (hdeg : 0 ≤ deg)
    (hin : ∀ p : ℕ, p < poly.toNat →
      0 ≤ rawPitch degrees base (deg + (p : ℤ)) ∧
      rawPitch degrees base (deg + (p : ℤ)) ≤ 127) :
    List.Pairwise (· ≠ ·) (chosenPitches degrees base deg poly) := by
  unfold chosenPitches
  have hp : List.Pairwise
      (fun a b : ℕ => max 0 (min 127 (rawPitch degrees base (deg + (a : ℤ)))) ≠
        max 0 (min 127 (rawPitch degrees base (deg + (b : ℤ)))))
      (List.range poly.toNat) := by
    refine (List.pairwise_lt_range poly.toNat).imp_of_mem fun {a b} ha hb hab => ?_
    have hA := hin a (List.mem_range.mp ha)
    have hB := hin b (List.mem_range.mp hb)
    have : rawPitch degrees base (deg + (a : ℤ)) < rawPitch degrees base (deg + (b : ℤ)) :=
      rawPitch_lt_of_lt degrees base hg _ _ (by omega) (by omega)
    omega
  exact List.pairwise_map.mpr hp

/-- C9 counterexample: at `base_midi = 127` with polyphony 2 and a
saturated low value (`deg_index = 0`), both voices clamp to pitch 127 —
the two notes of the step share one pitch, refuting pairwise
distinctness. -/
theorem c9_counterexample :
    (stepNotes (mkCtx nrmClip 120 eqTopRange) 0 []).length = 2 ∧
    (stepNotes (mkCtx nrmClip 120 eqTopRange) 0 []).map Note.pitch = [127, 127] := by
  decide

/-- C9 (amended): each step of an equation with polyphony `n` emits
exactly `n` notes sharing one start, end and velocity; the voice pitches
are the clamped scale stack, non-decreasing upward in scale-degree order
(never a lower voice); and they are pairwise distinct whenever every
voice's unclamped pitch lies within `[0, 127]` — saturation at the MIDI
clamp may otherwise merge voices. -/
theorem c9_polyphony_amended (c : LoopCtx) (t : ℚ) (st : VarMap)
    (hg : GoodScale c.degrees) :
    (stepNotes c t st).length = c.poly.toNat ∧
    (∀ a ∈ stepNotes c t st, ∀ b ∈ stepNotes c t st,
      a.start = b.start ∧ a.endT = b.endT ∧ a.velocity = b.velocity) ∧
    (stepNotes c t st).map Note.pitch =
      chosenPitches c.degrees c.base_midi (stepDegIndex c t st) c.poly ∧
    List.Pairwise (· ≤ ·) ((stepNotes c t st).map Note.pitch) ∧
    ((∀ p : ℕ, p < c.poly.toNat →
        0 ≤ rawPitch c.degrees c.base_midi (stepDegIndex c t st + (p : ℤ)) ∧
        rawPitch c.degrees c.base_midi (stepDegIndex c t st + (p : ℤ)) ≤ 127) →
      List.Pairwise (· ≠ ·) ((stepNotes c t st).map Note.pitch)) := by
  have hdeg : 0 ≤ stepDegIndex c t st := le_max_left 0 _
  have hmap : (stepNotes c t st).map Note.pitch =
      chosenPitches c.degrees c.base_midi (stepDegIndex c t st) c.poly := by
    simp only [stepNotes, stepDegIndex, List.map_map]
    simp [Function.comp, chosenPitches]
  refine ⟨?_, ?_, hmap, ?_, fun hin => ?_⟩
  · simp [stepNotes, chosenPitches]
  · intro a ha b hb
    simp only [stepNotes, List.mem_map] at ha hb
    obtain ⟨pa, _, rfl⟩ := ha
    obtain ⟨pb, _, rfl⟩ := hb
    exact ⟨rfl, rfl, rfl⟩
  · rw [hmap]
    exact chosenPitches_sorted _ _ _ _ hg hdeg
  · rw [hmap]
    exact chosenPitches_distinct _ _ _ _ hg hdeg hin

/-- C9 witness: the amended statement at a concrete three-voice step
(scale `a_minor`, `base_midi = 60`): three notes, distinct pitches. -/
theorem c9_polyphony_witness :
    (stepNotes (mkCtx nrmClip 120 eqPoly3) 0 [("x", 0)]).length = 3 ∧
    List.Pairwise (· ≠ ·)
      ((stepNotes (mkCtx nrmClip 120 eqPoly3) 0 [("x", 0)]).map Note.pitch) :=
  ⟨(c9_polyphony_amended (mkCtx nrmClip 120 eqPoly3) 0 [("x", 0)] (by decide)).1,
   (c9_polyphony_amended (mkCtx nrmClip 120 eqPoly3) 0 [("x", 0)] (by decide)).2.2.2.2
     (by decide)⟩

theorem heapRead_write_ne (h : Heap) (loc loc' : ℕ) (v : VarMap) (hne : loc' ≠ loc) :
    heapRead (heapWrite h loc v) loc' = heapRead h loc' := by
  unfold heapRead heapWrite
  rw [List.getD_eq_getElem?_getD, List.getD_eq_getElem?_getD,
    List.getElem?_set_ne (Ne.symm hne)]

theorem heapRead_append_lt (h : Heap) (v : VarMap) (loc : ℕ) (hloc : loc < h.length) :
    heapRead (h ++ [v]) loc = heapRead h loc := by
  unfold heapRead
  exact List.getD_append _ _ _ _ hloc

theorem runLoopH_frame (c : LoopCtx) (fuel : ℕ) :
    ∀ (t : ℚ) (loc : ℕ) (h : Heap) (loc' : ℕ), loc' ≠ loc →
      heapRead (runLoopH c fuel t loc h).2 loc' = heapRead h loc' := by
  induction fuel with
  | zero =>
      intro t loc h loc' _
      rfl
  | succ k ih =>
      intro t loc h loc' hne
      rw [runLoopH]
      split
      · rw [ih _ _ _ _ hne, heapRead_write_ne _ _ _ _ hne]
      · rfl

theorem runLoopH_length (c : LoopCtx) (fuel : ℕ) :
    ∀ (t : ℚ) (loc : ℕ) (h : Heap), (runLoopH c fuel t loc h).2.length = h.length := by
  induction fuel with
  | zero => intro t loc h; rfl
  | succ k ih =>
      intro t loc h
      rw [runLoopH]
      split
      · rw [ih]
        exact List.length_set _ _ _
      · rfl

/-- C10: the simulation never mutates the caller's configuration. On a
heap of variable dictionaries, `render_config` reads each equation's
`vars` dict, allocates a fresh float-valued copy, and every write of the
stepping loop targets only that copy — so after rendering (including an
aborting parse error) every location allocated before the call, in
particular each equation's `vars` dict, holds exactly its original
value. -/
theorem c10_no_input_mutation (nrm : ℚ → ℚ) (tempo : ℚ) (fuel : ℕ)
    (eqs : List (Equation × ℕ)) (h : Heap) (loc : ℕ) (hloc : loc < h.length) :
    heapRead (renderEqsHeap nrm tempo fuel eqs h) loc = heapRead h loc := by
  induction eqs generalizing h with
  | nil => rfl
  | cons p rest ih =>
      obtain ⟨e, l0⟩ := p
      rw [renderEqsHeap]
      split
      · rfl
      · rename_i fn heq
        have hlen : loc < h.length + 1 := Nat.lt_succ_of_lt hloc
        have hne : loc ≠ (heapAlloc h (heapRead h l0)).2 := by
          unfold heapAlloc
          omega
        have hrun := runLoopH_frame { mkCtx nrm tempo e with fn := fn } fuel e.window.1
          (heapAlloc h (heapRead h l0)).2 (heapAlloc h (heapRead h l0)).1 loc hne
        have hlenrun : (runLoopH { mkCtx nrm tempo e with fn := fn } fuel e.window.1
            (heapAlloc h (heapRead h l0)).2 (heapAlloc h (heapRead h l0)).1).2.length =
            h.length + 1 := by
          rw [runLoopH_length]
          unfold heapAlloc
          simp
        rw [ih _ (by rw [hlenrun]; exact hlen), hrun]
        unfold heapAlloc
        exact heapRead_append_lt h _ loc hloc

/-- C10 witness: one equation with update `x = x + 1`, whose `vars` dict
sits at heap location 0 holding `x = 5`: after rendering, location 0 is
untouched while the freshly allocated copy at location 1 holds the
simulated `x = 6`. -/
theorem c10_no_input_mutation_witness :
    heapRead (renderEqsHeap nrmClip 120 4 [(eqIncr, 0)] [[("x", 5)]]) 0 =
      heapRead [[("x", 5)]] 0 ∧
    heapRead (renderEqsHeap nrmClip 120 4 [(eqIncr, 0)] [[("x", 5)]]) 1 = [("x", 6)] :=
  ⟨c10_no_input_mutation nrmClip 120 4 [(eqIncr, 0)] [[("x", 5)]] 0 (by decide),
   by decide⟩
